import Mathlib

/-!
Verification of the numeric-token core of `scripts/sum_tables.js`.

The program's core is `parseNumberFromString` (source lines 26-66), the
token-extraction regex `/[\-()]*\s*[0-9][0-9\.,\(\)\s]*[0-9]/g`
(source lines 149 and 158) and the page accumulation loop
(source lines 157-164).  We embed these shallowly: strings become
`List Char` pipelines, the regex becomes an explicit leftmost greedy
backtracking scanner, and JavaScript numbers become exact rationals
(the double-precision rounding of the host language is immaterial to
every property considered here, which only involves small decimals).
-/

namespace SumTables

/-- Character class of the JavaScript `\s` escape and of `String.prototype.trim`
(WhiteSpace together with LineTerminator).  The ASCII and the common Unicode
whitespace code points are listed; none of the properties below depends on the
exotic remainder of the Unicode space category. -/
def isJsSpace (c : Char) : Bool :=
  c == ' ' || c == '\t' || c == '\n' || c == '\r' || c == '\x0b' || c == '\x0c' ||
  c == '\u00A0' || c == '\u2028' || c == '\u2029'

/-- Character class of the JavaScript regex `.` complement: the LineTerminator set. -/
def isLineTerm (c : Char) : Bool :=
  c == '\n' || c == '\r' || c == '\u2028' || c == '\u2029'

/-- Embedding of `String.prototype.trim` (source line 29): drop JS whitespace
from both ends. -/
def trimJs (l : List Char) : List Char :=
  ((l.dropWhile isJsSpace).reverse.dropWhile isJsSpace).reverse

/-- Characters kept by the strip on source line 34
(`str.replace(/[^\d\.\-,\(\)\s]/g, '')` keeps exactly these). -/
def keepChar (c : Char) : Bool :=
  c.isDigit || c == '.' || c == '-' || c == ',' || c == '(' || c == ')' || isJsSpace c

/-- Source line 34: remove every character outside digits, `.`, `-`, `,`,
parentheses and whitespace. -/
def stripOther (l : List Char) : List Char :=
  l.filter keepChar

/-- Source line 37: the test `/^\s*\(.*\)\s*$/.test(str)`.  The leading and
trailing `\s*` deterministically absorb the maximal whitespace runs (`(` and
`)` are not whitespace), so the regex holds exactly when, after trimming
whitespace from both ends, the string starts with `(`, ends with `)`, and the
part strictly between them contains no LineTerminator (JS `.` matches
everything except LineTerminator). -/
def isParenNegL (l : List Char) : Bool :=
  match ((l.dropWhile isJsSpace).reverse.dropWhile isJsSpace).reverse with
  | [] => false
  | c :: rest =>
    c == '(' &&
      (match rest.reverse with
       | [] => false
       | c2 :: midR => c2 == ')' && midR.all (fun x => !(isLineTerm x)))

/-- Source line 38: `str.replace(/[()]/g, '')`. -/
def removeParens (l : List Char) : List Char :=
  l.filter (fun c => !(c == '(') && !(c == ')'))

/-- Source line 41: `str.replace(/\s+/g, '')`. -/
def removeSpaces (l : List Char) : List Char :=
  l.filter (fun c => !(isJsSpace c))

/-- Source lines 47 and 50: `str.replace(/,/g, '')`. -/
def removeCommas (l : List Char) : List Char :=
  l.filter (fun c => !(c == ','))

/-- Source lines 51-52:
`str.slice(0, lastDotIndex).replace(/\./g, '') + str.slice(lastDotIndex)`
with `lastDotIndex = str.lastIndexOf('.')`.  Splitting the reversed list at
the first `'.'` realises `lastIndexOf`: when a dot exists,
`l = preR.reverse ++ '.' :: sufR.reverse` with `sufR` the maximal dot-free
suffix, `slice(0, i)` is `preR.reverse` and `slice(i)` is `'.' :: sufR.reverse`.
When no dot exists `lastIndexOf` is `-1` and
`slice(0,-1).replace(...) + slice(-1)` returns the (dot-free) string unchanged;
this branch is unreachable from `separatorPhase`. -/
def lastDotRewrite (l : List Char) : List Char :=
  match l.reverse.dropWhile (fun c => !(c == '.')) with
  | [] => l
  | _ :: preR =>
    preR.reverse.filter (fun c => !(c == '.')) ++
      '.' :: (l.reverse.takeWhile (fun c => !(c == '.'))).reverse

/-- Source lines 45-53: count the dots; with at most one dot strip all commas,
otherwise strip all commas and keep only the last dot. -/
def separatorPhase (l : List Char) : List Char :=
  if l.count '.' ≤ 1 then removeCommas l
  else lastDotRewrite (removeCommas l)

/-- Value of a list of decimal digit characters, most significant first. -/
def digitsVal (l : List Char) : ℕ :=
  l.foldl (fun a c => 10 * a + (c.toNat - 48)) 0

/-- Decimal literal part of ECMAScript `ToNumber` on strings: an optional
integer part, an optional dot with an optional fraction part, with at least
one digit overall.  Exponents, `Infinity` and hex forms are omitted: every
string this program hands to `Number()` consists only of digits, dots and
minus signs (see `preprocess`), and on that alphabet this model is exact. -/
def parseDecimalLit (l : List Char) : Option ℚ :=
  match l.dropWhile Char.isDigit with
  | [] =>
    if (l.takeWhile Char.isDigit).isEmpty then none
    else some ((digitsVal (l.takeWhile Char.isDigit) : ℚ))
  | c :: fr =>
    if c == '.' then
      if fr.all Char.isDigit && !((l.takeWhile Char.isDigit).isEmpty && fr.isEmpty) then
        some ((digitsVal (l.takeWhile Char.isDigit) : ℚ) + (digitsVal fr : ℚ) / (10 : ℚ) ^ fr.length)
      else none
    else none

/-- Model of ECMAScript `ToNumber` applied to a string (`Number(str)` on
source lines 56 and 60): trim whitespace, the empty string is `0`, an optional
sign, then a decimal literal; anything else is NaN (`none`). -/
def jsToNumber (l : List Char) : Option ℚ :=
  match trimJs l with
  | [] => some 0
  | c :: rest =>
    if c == '-' then (parseDecimalLit rest).map (fun v => -v)
    else if c == '+' then parseDecimalLit rest
    else parseDecimalLit (c :: rest)

/-- Source lines 27-53 of `parseNumberFromString`, everything before the
`Number()` parse: trim, reject the empty string, strip foreign characters,
record the parenthesised-negative test, remove parentheses and whitespace,
and run the separator disambiguation.  Returns the string handed to
`Number()` together with the recorded `isParenNeg` flag. -/
def preprocess (s : String) : Option (List Char × Bool) :=
  if trimJs s.toList = [] then none
  else
    some (separatorPhase (removeSpaces (removeParens (stripOther (trimJs s.toList)))),
          isParenNegL (stripOther (trimJs s.toList)))

/-- Source lines 26-66: `parseNumberFromString`.  `none` is the JS `null`
("invalid") result.  After preprocessing, parse; on NaN retry with every
comma replaced by a dot; on success negate the absolute value when the
parenthesised-negative flag was set. -/
def parseNumberFromString (s : String) : Option ℚ :=
  match preprocess s with
  | none => none
  | some (str, paren) =>
    match jsToNumber str with
    | some v => some (if paren then -(abs v) else v)
    | none =>
      match jsToNumber (str.map (fun c => if c == ',' then '.' else c)) with
      | some v => some (if paren then -(abs v) else v)
      | none => none

/-- Character class `[\-()]` opening the token regex. -/
def isSignParen (c : Char) : Bool :=
  c == '-' || c == '(' || c == ')'

/-- Character class `[0-9\.,\(\)\s]` of the token regex body. -/
def isTokChar (c : Char) : Bool :=
  c.isDigit || c == '.' || c == ',' || c == '(' || c == ')' || isJsSpace c

/-- Split a list after its last digit: `some (de, r)` with `l = de ++ r`,
`de` ending in a digit and `r` digit-free; `none` when `l` has no digit. -/
def splitLastDigit (l : List Char) : Option (List Char × List Char) :=
  match l.reverse.dropWhile (fun c => !(c.isDigit)) with
  | [] => none
  | c :: deR => some ((c :: deR).reverse, (l.reverse.takeWhile (fun c => !(c.isDigit))).reverse)

/-- One anchored attempt of the token regex `[\-()]*\s*[0-9][0-9\.,\(\)\s]*[0-9]`
at the head of `l`.  The backtracking collapses deterministically: the two
leading stars absorb their maximal runs (shrinking them can never let the
mandatory digit match, since the shrunk-over characters are not digits), and
the greedy body `[0-9\.,\(\)\s]*` followed by the mandatory final `[0-9]`
together consume the maximal token-class run truncated after its last digit,
failing when that run holds no digit.  On success returns the matched
substring and the remaining suffix. -/
def matchAttempt (l : List Char) : Option (List Char × List Char) :=
  match (l.dropWhile isSignParen).dropWhile isJsSpace with
  | [] => none
  | c :: l3 =>
    if c.isDigit then
      match splitLastDigit (l3.takeWhile isTokChar) with
      | some (de, r2) =>
        some (l.takeWhile isSignParen ++
                ((l.dropWhile isSignParen).takeWhile isJsSpace) ++ c :: de,
              r2 ++ l3.dropWhile isTokChar)
      | none => none
    else none

/-- Global scan of `str.match(/.../g)` (source lines 149 and 158): from left to
right, at each position attempt a match; on success emit it and resume after
it, on failure advance one character.  `fuel` bounds the recursion; every
step shortens the list, so `fuel = l.length` never truncates the scan
(a successful match consumes at least two characters). -/
def tokensAux : Nat → List Char → List (List Char)
  | 0, _ => []
  | _ + 1, [] => []
  | fuel + 1, c :: rest =>
    match matchAttempt (c :: rest) with
    | some (m, r) => m :: tokensAux fuel r
    | none => tokensAux fuel rest

/-- Token Extractor: all matches of the token regex in a cell text, in order;
the JS `null` result of `.match` for a match-free string becomes `[]`, which
the accumulation loop treats identically (`if (!tokens) continue`). -/
def extractTokens (s : String) : List String :=
  (tokensAux s.toList.length s.toList).map (fun cs => String.mk cs)

/-- Page accumulation loop, source lines 157-164: over every cell text, over
every extracted token, add every non-null parse to the running page subtotal
(started at 0 on source line 144). -/
def accumulate (cellTexts : List String) : ℚ :=
  cellTexts.foldl
    (fun acc s =>
      (extractTokens s).foldl
        (fun a t =>
          match parseNumberFromString t with
          | some v => a + v
          | none => a) acc)
    0

/-- Variant of `parseNumberFromString` with the comma-replacement retry of
source lines 58-61 deleted, for the refinement claim that the retry is dead
code: by parse time every comma has been stripped in both branches of the
dot-count disambiguation. -/
def parseNumberFromStringNoRetry (s : String) : Option ℚ :=
  match preprocess s with
  | none => none
  | some (str, paren) =>
    match jsToNumber str with
    | some v => some (if paren then -(abs v) else v)
    | none => none

/-- Modelled from the spec's step-6 wording for the multi-dot branch: "remove
all other dots (concatenating the digit groups they separated) while
preserving the final dot's position" — keep every character except a dot that
is followed by another dot later in the string. -/
def dropNonFinalDots : List Char → List Char
  | [] => []
  | c :: t =>
    if c == '.' && t.contains '.' then dropNonFinalDots t
    else c :: dropNonFinalDots t

/-- Modelled ECMAScript `ToString` of an integral number in the safe-integer
range (`String(n)` for the stringified form of a plain integer): decimal
digits with a leading minus sign for negative values. -/
def natToDigitsAux : Nat → Nat → List Char
  | 0, _ => []
  | fuel + 1, n =>
    if n < 10 then [Nat.digitChar n]
    else natToDigitsAux fuel (n / 10) ++ [Nat.digitChar (n % 10)]

/-- Decimal digit list of a natural number (`fuel = n + 1` always suffices,
as the fuel drops by one while the argument at least halves). -/
def natToDigits (n : Nat) : List Char :=
  natToDigitsAux (n + 1) n

/-- Stringified form of an integer, as ECMAScript `ToString` renders safe
integers. -/
def jsNumToString (n : ℤ) : List Char :=
  if n < 0 then '-' :: natToDigits n.natAbs else natToDigits n.natAbs

end SumTables
namespace SumTables

theorem takeWhile_append_all {α : Type} {p : α → Bool} {l₁ : List α} (l₂ : List α)
    (h : ∀ x ∈ l₁, p x = true) :
    (l₁ ++ l₂).takeWhile p = l₁ ++ l₂.takeWhile p := by
  induction l₁ with
  | nil => simp
  | cons a t ih =>
    simp only [List.cons_append, List.takeWhile_cons, h a (by simp)]
    simp [ih fun x hx => h x (by simp [hx])]

theorem dropWhile_append_all {α : Type} {p : α → Bool} {l₁ : List α} (l₂ : List α)
    (h : ∀ x ∈ l₁, p x = true) :
    (l₁ ++ l₂).dropWhile p = l₂.dropWhile p := by
  induction l₁ with
  | nil => simp
  | cons a t ih =>
    simp only [List.cons_append, List.dropWhile_cons, h a (by simp)]
    simp [ih fun x hx => h x (by simp [hx])]

theorem takeWhile_append_stop {α : Type} {p : α → Bool} {l₁ : List α} (l₂ : List α)
    (h : ∃ x ∈ l₁, p x = false) :
    (l₁ ++ l₂).takeWhile p = l₁.takeWhile p := by
  induction l₁ with
  | nil => simp at h
  | cons a t ih =>
    cases ha : p a with
    | true =>
      simp only [List.cons_append, List.takeWhile_cons, ha]
      obtain ⟨x, hx, hpx⟩ := h
      rcases List.mem_cons.mp hx with rfl | hx
      · rw [ha] at hpx; cases hpx
      · simp [ih ⟨x, hx, hpx⟩]
    | false =>
      simp only [List.cons_append, List.takeWhile_cons, ha]
      simp

theorem dropWhile_append_stop {α : Type} {p : α → Bool} {l₁ : List α} (l₂ : List α)
    (h : ∃ x ∈ l₁, p x = false) :
    (l₁ ++ l₂).dropWhile p = l₁.dropWhile p ++ l₂ := by
  induction l₁ with
  | nil => simp at h
  | cons a t ih =>
    cases ha : p a with
    | true =>
      simp only [List.cons_append, List.dropWhile_cons, ha]
      obtain ⟨x, hx, hpx⟩ := h
      rcases List.mem_cons.mp hx with rfl | hx
      · rw [ha] at hpx; cases hpx
      · simp [ih ⟨x, hx, hpx⟩, ha]
    | false =>
      simp [List.dropWhile_cons, ha]

theorem beq_false_of_isDigit {c d : Char} (h : c.isDigit = true) (hd : d.isDigit = false) :
    (c == d) = false := by
  cases hcd : c == d
  · rfl
  · exfalso
    rw [eq_of_beq hcd, hd] at h
    cases h

theorem isJsSpace_false_of_isDigit {c : Char} (h : c.isDigit = true) : isJsSpace c = false := by
  unfold isJsSpace
  rw [beq_false_of_isDigit h (by decide), beq_false_of_isDigit h (by decide),
      beq_false_of_isDigit h (by decide), beq_false_of_isDigit h (by decide),
      beq_false_of_isDigit h (by decide), beq_false_of_isDigit h (by decide),
      beq_false_of_isDigit h (by decide), beq_false_of_isDigit h (by decide),
      beq_false_of_isDigit h (by decide)]
  rfl

theorem isSignParen_false_of_isDigit {c : Char} (h : c.isDigit = true) : isSignParen c = false := by
  unfold isSignParen
  rw [beq_false_of_isDigit h (by decide), beq_false_of_isDigit h (by decide),
      beq_false_of_isDigit h (by decide)]
  rfl

theorem keepChar_true_of_isDigit {c : Char} (h : c.isDigit = true) : keepChar c = true := by
  unfold keepChar
  rw [h]
  rfl

end SumTables
namespace SumTables

theorem matchAttempt_none_of_noDigit (l : List Char) (h : ∀ c ∈ l, c.isDigit = false) :
    matchAttempt l = none := by
  unfold matchAttempt
  cases h2 : (l.dropWhile isSignParen).dropWhile isJsSpace with
  | nil => rfl
  | cons c l3 =>
    have hc : c ∈ l := by
      have hsub : ((l.dropWhile isSignParen).dropWhile isJsSpace).Sublist l :=
        (List.dropWhile_sublist _).trans (List.dropWhile_sublist _)
      exact hsub.mem (h2 ▸ List.mem_cons_self c l3)
    simp [h c hc]

theorem tokensAux_eq_nil_of_noDigit :
    ∀ (fuel : Nat) (l : List Char), (∀ c ∈ l, c.isDigit = false) → tokensAux fuel l = [] := by
  intro fuel
  induction fuel with
  | zero => intro l _; rfl
  | succ n ih =>
    intro l h
    cases l with
    | nil => rfl
    | cons c rest =>
      simp only [tokensAux, matchAttempt_none_of_noDigit _ h]
      exact ih rest fun x hx => h x (List.mem_cons_of_mem c hx)

/-- C6: a cell text with no digit characters yields no tokens; the non-match is
not an error and contributes nothing. -/
theorem extractTokens_eq_nil_of_noDigit (s : String) (h : ∀ c ∈ s.toList, c.isDigit = false) :
    extractTokens s = [] := by
  unfold extractTokens
  rw [tokensAux_eq_nil_of_noDigit _ _ h]
  rfl

theorem extractTokens_noDigit_witness : extractTokens ("abc") = [] :=
  extractTokens_eq_nil_of_noDigit ("abc") (by decide)

end SumTables
namespace SumTables

/-- C2 (amended): the token pattern ends in a mandatory second digit, so a cell
text consisting of a lone digit yields no token, while two adjacent digits do. -/
theorem single_digit_no_token :
    (∀ c : Char, c.isDigit = true → extractTokens (String.mk [c]) = []) ∧
      extractTokens ("55") = [("55")] := by
  constructor
  · intro c h
    have h1 : (String.mk [c]).toList = [c] := rfl
    unfold extractTokens
    rw [h1]
    simp only [List.length_cons, List.length_nil, tokensAux]
    have hma : matchAttempt [c] = none := by
      unfold matchAttempt
      rw [show List.dropWhile isSignParen [c] = [c] by
            simp [List.dropWhile_cons, isSignParen_false_of_isDigit h],
          show List.dropWhile isJsSpace [c] = [c] by
            simp [List.dropWhile_cons, isJsSpace_false_of_isDigit h]]
      simp [h, splitLastDigit]
    rw [hma]
    rfl
  · decide

theorem single_digit_no_token_witness : extractTokens (String.mk ['7']) = [] :=
  single_digit_no_token.1 '7' (by decide)

/-- C2 counterexample: the extractor does not return the single-digit token
"5" for the cell text "5"; it returns nothing. -/
theorem single_digit_counterexample : extractTokens ("5") = [] := by decide

end SumTables
namespace SumTables

/-- C8: separator-only and empty inputs are rejected with the invalid marker:
any input whose trim is empty is invalid, and "--" and "" are invalid. -/
theorem invalid_on_empty_and_separators :
    (∀ s : String, trimJs s.toList = [] → parseNumberFromString s = none) ∧
      parseNumberFromString ("--") = none ∧ parseNumberFromString ("") = none := by
  refine ⟨?_, by decide, by decide⟩
  intro s h
  unfold parseNumberFromString preprocess
  rw [if_pos h]

theorem invalid_on_empty_witness : parseNumberFromString ("  ") = none :=
  invalid_on_empty_and_separators.1 ("  ") (by decide)

/-- C4: whenever the post-strip string passes the parenthesised-negative test,
a successful normalization is the negative of its own absolute value (never
double-negated), and in particular "(1,234.56)" normalizes to -1234.56 and
the already-signed "(-300)" still normalizes to -300. -/
theorem paren_negative_forces_nonpos :
    (∀ (s : String) (v : ℚ), isParenNegL (stripOther (trimJs s.toList)) = true →
        parseNumberFromString s = some v → v = -(abs v)) ∧
      parseNumberFromString ("(1,234.56)") = some (-(123456/100)) ∧
      parseNumberFromString ("(-300)") = some (-300) := by
  refine ⟨?_, ?_, by decide⟩
  · intro s v hp hv
    by_cases h0 : trimJs s.toList = []
    · unfold parseNumberFromString preprocess at hv
      rw [if_pos h0] at hv
      cases hv
    · have hpre : preprocess s =
          some (separatorPhase (removeSpaces (removeParens (stripOther (trimJs s.toList)))), true) := by
        unfold preprocess
        rw [if_neg h0, hp]
      unfold parseNumberFromString at hv
      rw [hpre] at hv
      simp only at hv
      cases hj : jsToNumber (separatorPhase (removeSpaces (removeParens (stripOther (trimJs s.toList))))) with
      | some w =>
        rw [hj] at hv
        simp only [if_true, Option.some.injEq] at hv
        subst hv
        rw [abs_neg, abs_abs]
      | none =>
        rw [hj] at hv
        simp only at hv
        cases hj2 : jsToNumber ((separatorPhase (removeSpaces (removeParens (stripOther (trimJs s.toList))))).map
            (fun c => if c == ',' then '.' else c)) with
        | some w =>
          rw [hj2] at hv
          simp only [if_true, Option.some.injEq] at hv
          subst hv
          rw [abs_neg, abs_abs]
        | none => rw [hj2] at hv; cases hv
  · have h1 : parseNumberFromString ("(1,234.56)") =
        some (-(abs ((digitsVal ['1','2','3','4'] : ℚ) +
          (digitsVal ['5','6'] : ℚ) / (10 : ℚ) ^ (['5','6'].length)))) := rfl
    rw [h1, show digitsVal ['1','2','3','4'] = 1234 from rfl, show digitsVal ['5','6'] = 56 from rfl]
    rw [abs_of_nonneg (by positivity)]
    norm_num

theorem paren_negative_witness :
    parseNumberFromString ("(300)") = some (-300) ∧ ((-300 : ℚ) = -(abs (-300 : ℚ))) :=
  ⟨by decide, paren_negative_forces_nonpos.1 ("(300)") (-300) (by decide) (by decide)⟩

end SumTables
namespace SumTables

/-- C1 (actual code behaviour at the spec's example): the token regex must end
on a digit, so the cell "Cost: (300)" tokenizes as "(300" without its closing
parenthesis, the parenthesised-negative branch cannot fire, and the page
subtotal is 1200 + 300 = 1500 rather than the documented 900. -/
theorem accumulate_example_actual :
    accumulate [("Revenue: $1,200"), ("Cost: (300)")] = 1500 ∧
      extractTokens ("Cost: (300)") = [("(300")] ∧
      parseNumberFromString ("(300") = some 300 := by
  refine ⟨?_, by decide, by decide⟩
  have h1 : accumulate [("Revenue: $1,200"), ("Cost: (300)")] =
      (0 + ((digitsVal ['1','2','0','0'] : ℚ))) + ((digitsVal ['3','0','0'] : ℚ)) := rfl
  rw [h1, show digitsVal ['1','2','0','0'] = 1200 from rfl,
      show digitsVal ['3','0','0'] = 300 from rfl]
  norm_num

/-- C3 (actual code behaviour): both branches of the dot-count disambiguation
strip every comma before the first parse, so "1234,56" parses as 123456 and
the comma-as-decimal retry never fires. -/
theorem comma_decimal_actual : parseNumberFromString ("1234,56") = some 123456 := by decide

end SumTables
namespace SumTables

theorem inner_foldl_eq (ts : List String) : ∀ a : ℚ,
    ts.foldl (fun a t =>
        match parseNumberFromString t with
        | some v => a + v
        | none => a) a
      = a + (ts.filterMap parseNumberFromString).sum := by
  induction ts with
  | nil => intro a; simp
  | cons t ts ih =>
    intro a
    cases hp : parseNumberFromString t with
    | some v =>
      simp only [List.foldl_cons, List.filterMap_cons, hp, ih, List.sum_cons]
      ring
    | none =>
      simp only [List.foldl_cons, List.filterMap_cons, hp, ih]

/-- C7: the page accumulator is total and equals the sum of the successfully
normalized values of all tokens of all cells; invalid tokens are silently
excluded and the empty page yields 0. -/
theorem accumulate_eq_valid_sum :
    (∀ cellTexts : List String,
        accumulate cellTexts =
          ((cellTexts.flatMap extractTokens).filterMap parseNumberFromString).sum) ∧
      accumulate [] = 0 := by
  have houter : ∀ (cts : List String) (acc : ℚ),
      cts.foldl (fun acc s =>
          (extractTokens s).foldl (fun a t =>
            match parseNumberFromString t with
            | some v => a + v
            | none => a) acc) acc
        = acc + ((cts.flatMap extractTokens).filterMap parseNumberFromString).sum := by
    intro cts
    induction cts with
    | nil => intro acc; simp
    | cons s cts ih =>
      intro acc
      rw [List.foldl_cons, ih, inner_foldl_eq, List.flatMap_cons, List.filterMap_append,
        List.sum_append]
      ring
  constructor
  · intro cts
    unfold accumulate
    rw [houter]
    ring
  · rfl

end SumTables
namespace SumTables

theorem comma_not_mem_removeCommas (l : List Char) : ',' ∉ removeCommas l := by
  intro hm
  have := (List.mem_filter.mp hm).2
  simp at this

theorem comma_not_mem_lastDotRewrite {m : List Char} (h : ',' ∉ m) : ',' ∉ lastDotRewrite m := by
  unfold lastDotRewrite
  cases hm : m.reverse.dropWhile (fun c => !(c == '.')) with
  | nil => exact h
  | cons d preR =>
    intro hmem
    rcases List.mem_append.mp hmem with hl | hr
    · have h1 : ',' ∈ preR := List.mem_reverse.mp (List.mem_filter.mp hl).1
      have h2 : ',' ∈ m.reverse.dropWhile (fun c => !(c == '.')) := by
        rw [hm]; exact List.mem_cons_of_mem d h1
      exact h (List.mem_reverse.mp ((List.dropWhile_sublist _).mem h2))
    · rcases List.mem_cons.mp hr with heq | htl
      · cases heq
      · have h2 : ',' ∈ m.reverse.takeWhile (fun c => !(c == '.')) := List.mem_reverse.mp htl
        exact h (List.mem_reverse.mp ((List.takeWhile_sublist _).mem h2))

theorem comma_not_mem_separatorPhase (l : List Char) : ',' ∉ separatorPhase l := by
  unfold separatorPhase
  by_cases hc : l.count '.' ≤ 1
  · rw [if_pos hc]; exact comma_not_mem_removeCommas l
  · rw [if_neg hc]; exact comma_not_mem_lastDotRewrite (comma_not_mem_removeCommas l)

theorem map_comma_eq_self {l : List Char} (h : ',' ∉ l) :
    l.map (fun c => if c == ',' then '.' else c) = l := by
  induction l with
  | nil => rfl
  | cons c t ih =>
    have hc : ¬(c == ',') = true := by
      intro hb
      exact h (by rw [eq_of_beq hb]; exact List.mem_cons_self _ _)
    simp only [List.map_cons, if_neg hc]
    rw [ih fun hm => h (List.mem_cons_of_mem c hm)]

/-- C10: the comma-as-decimal retry of source lines 58-61 is dead code: both
branches of the dot-count disambiguation have already removed every comma
before the first parse, so the retry parses the same string and the function
equals its retry-free variant on every input. -/
theorem retry_never_fires (s : String) :
    parseNumberFromString s = parseNumberFromStringNoRetry s := by
  unfold parseNumberFromString parseNumberFromStringNoRetry
  by_cases h0 : trimJs s.toList = []
  · unfold preprocess
    rw [if_pos h0]
  · have hpre : preprocess s =
        some (separatorPhase (removeSpaces (removeParens (stripOther (trimJs s.toList)))),
          isParenNegL (stripOther (trimJs s.toList))) := by
      unfold preprocess
      rw [if_neg h0]
    rw [hpre]
    simp only
    cases hj : jsToNumber (separatorPhase (removeSpaces (removeParens (stripOther (trimJs s.toList))))) with
    | some w => rfl
    | none =>
      rw [map_comma_eq_self (comma_not_mem_separatorPhase _), hj]

end SumTables
namespace SumTables

theorem dropNonFinalDots_of_not_mem {t : List Char} (h : '.' ∉ t) :
    dropNonFinalDots t = t := by
  induction t with
  | nil => rfl
  | cons c t ih =>
    have hc : ¬(c == '.') = true := by
      intro hb
      exact h (by rw [eq_of_beq hb] at *; exact List.mem_cons_self _ _)
    unfold dropNonFinalDots
    rw [if_neg (by simp [hc]), ih fun hm => h (List.mem_cons_of_mem c hm)]

theorem lastDotRewrite_eq_dropNonFinalDots :
    ∀ (m : List Char), '.' ∈ m → lastDotRewrite m = dropNonFinalDots m := by
  intro m
  induction m with
  | nil => intro h; cases h
  | cons c t ih =>
    intro hdot
    by_cases hd : '.' ∈ t
    · have hstop : ∃ x ∈ t.reverse, (fun c => !(c == '.')) x = false :=
        ⟨'.', List.mem_reverse.mpr hd, by simp⟩
      cases hdt : t.reverse.dropWhile (fun c => !(c == '.')) with
      | nil =>
        exfalso
        have hall : t.reverse.takeWhile (fun c => !(c == '.')) = t.reverse := by
          have := List.takeWhile_append_dropWhile (p := fun c => !(c == '.')) (l := t.reverse)
          rw [hdt, List.append_nil] at this
          exact this
        have hmem : '.' ∈ t.reverse.takeWhile (fun c => !(c == '.')) := by
          rw [hall]
          exact List.mem_reverse.mpr hd
        have := List.mem_takeWhile_imp hmem
        simp at this
      | cons d preRt =>
        have hds : (c :: t).reverse.dropWhile (fun c => !(c == '.')) = d :: (preRt ++ [c]) := by
          rw [List.reverse_cons, dropWhile_append_stop _ hstop, hdt]
          rfl
        have hts : (c :: t).reverse.takeWhile (fun c => !(c == '.')) =
            t.reverse.takeWhile (fun c => !(c == '.')) := by
          rw [List.reverse_cons, takeWhile_append_stop _ hstop]
        have hlhs : lastDotRewrite (c :: t) =
            ((preRt ++ [c]).reverse.filter (fun c => !(c == '.'))) ++
              '.' :: (t.reverse.takeWhile (fun c => !(c == '.'))).reverse := by
          unfold lastDotRewrite
          rw [hds, hts]
        have hlt : lastDotRewrite t =
            (preRt.reverse.filter (fun c => !(c == '.'))) ++
              '.' :: (t.reverse.takeWhile (fun c => !(c == '.'))).reverse := by
          unfold lastDotRewrite
          rw [hdt]
        rw [hlhs, List.reverse_append, List.reverse_cons, List.reverse_nil, List.nil_append,
          List.singleton_append, List.filter_cons]
        by_cases hc : (c == '.') = true
        · rw [if_neg (by simp [hc])]
          unfold dropNonFinalDots
          rw [if_pos (by simp [hc, hd]), ← ih hd, hlt]
        · rw [if_pos (by simp [hc])]
          unfold dropNonFinalDots
          rw [if_neg (by simp [hc]), ← ih hd, hlt]
          rfl
    · have hc : c = '.' := by
        rcases List.mem_cons.mp hdot with h | h
        · exact h.symm
        · exact absurd h hd
      subst hc
      have hall : ∀ x ∈ t.reverse, (fun c => !(c == '.')) x = true := by
        intro x hx
        have hxt : x ∈ t := List.mem_reverse.mp hx
        have : ¬(x == '.') = true := by
          intro hb
          exact hd (by rw [← eq_of_beq hb]; exact hxt)
        simp [this]
      have hds : ('.' :: t).reverse.dropWhile (fun c => !(c == '.')) = ['.'] := by
        rw [List.reverse_cons, dropWhile_append_all _ hall]
        rfl
      have hts : ('.' :: t).reverse.takeWhile (fun c => !(c == '.')) = t.reverse := by
        rw [List.reverse_cons, takeWhile_append_all _ hall]
        simp
      have hlhs : lastDotRewrite ('.' :: t) = '.' :: t := by
        unfold lastDotRewrite
        rw [hds, hts]
        simp
      rw [hlhs]
      unfold dropNonFinalDots
      rw [if_neg (by simp [List.elem_iff, hd]), dropNonFinalDots_of_not_mem hd]

/-- C5: with more than one dot, the separator phase strips all commas and
keeps only the last dot, concatenating the digit groups the removed dots
separated; in particular "1.234.567" normalizes to 1234.567. -/
theorem multi_dot_keeps_last :
    (∀ l : List Char, 2 ≤ l.count '.' →
        separatorPhase l = dropNonFinalDots (removeCommas l)) ∧
      parseNumberFromString ("1.234.567") = some ((1234567 : ℚ)/1000) := by
  constructor
  · intro l hl
    unfold separatorPhase
    rw [if_neg (by omega)]
    apply lastDotRewrite_eq_dropNonFinalDots
    apply List.count_pos_iff.mp
    rw [removeCommas, List.count_filter (by simp)]
    omega
  · have h1 : parseNumberFromString ("1.234.567") =
        some ((digitsVal ['1','2','3','4'] : ℚ) +
          (digitsVal ['5','6','7'] : ℚ) / (10 : ℚ) ^ (['5','6','7'].length)) := rfl
    rw [h1, show digitsVal ['1','2','3','4'] = 1234 from rfl,
        show digitsVal ['5','6','7'] = 567 from rfl]
    norm_num

theorem multi_dot_keeps_last_witness :
    separatorPhase ['1','.','2','.','3'] = dropNonFinalDots (removeCommas ['1','.','2','.','3']) :=
  multi_dot_keeps_last.1 ['1','.','2','.','3'] (by decide)

end SumTables
namespace SumTables

theorem dropWhile_eq_self_of_false {α : Type} {p : α → Bool} {l : List α}
    (h : ∀ x ∈ l, p x = false) : l.dropWhile p = l := by
  cases l with
  | nil => rfl
  | cons a t => simp [List.dropWhile_cons, h a (List.mem_cons_self a t)]

theorem dropWhile_eq_nil_of_true {α : Type} {p : α → Bool} {l : List α}
    (h : ∀ x ∈ l, p x = true) : l.dropWhile p = [] := by
  induction l with
  | nil => rfl
  | cons a t ih =>
    simp only [List.dropWhile_cons, h a (List.mem_cons_self a t), if_true]
    exact ih fun x hx => h x (List.mem_cons_of_mem a hx)

theorem takeWhile_eq_self_of_true {α : Type} {p : α → Bool} {l : List α}
    (h : ∀ x ∈ l, p x = true) : l.takeWhile p = l := by
  induction l with
  | nil => rfl
  | cons a t ih =>
    simp only [List.takeWhile_cons, h a (List.mem_cons_self a t), if_true]
    rw [ih fun x hx => h x (List.mem_cons_of_mem a hx)]

theorem trimJs_eq_self {l : List Char} (h : ∀ x ∈ l, isJsSpace x = false) : trimJs l = l := by
  unfold trimJs
  rw [dropWhile_eq_self_of_false h,
      dropWhile_eq_self_of_false fun x hx => h x (List.mem_reverse.mp hx),
      List.reverse_reverse]

theorem digitChar_isDigit {k : Nat} (h : k < 10) : (Nat.digitChar k).isDigit = true := by
  interval_cases k <;> decide

theorem digitChar_toNat {k : Nat} (h : k < 10) : (Nat.digitChar k).toNat - 48 = k := by
  interval_cases k <;> decide

theorem natToDigitsAux_all_digit :
    ∀ (fuel n : Nat), ∀ c ∈ natToDigitsAux fuel n, c.isDigit = true := by
  intro fuel
  induction fuel with
  | zero => intro n c hc; cases hc
  | succ f ih =>
    intro n c hc
    unfold natToDigitsAux at hc
    by_cases h10 : n < 10
    · rw [if_pos h10] at hc
      rcases List.mem_cons.mp hc with rfl | hh
      · exact digitChar_isDigit h10
      · cases hh
    · rw [if_neg h10] at hc
      rcases List.mem_append.mp hc with hl | hr
      · exact ih (n / 10) c hl
      · rcases List.mem_cons.mp hr with rfl | hh
        · exact digitChar_isDigit (Nat.mod_lt n (by norm_num))
        · cases hh

theorem digitsVal_append_singleton (l : List Char) (c : Char) :
    digitsVal (l ++ [c]) = 10 * digitsVal l + (c.toNat - 48) := by
  unfold digitsVal
  rw [List.foldl_append]
  rfl

theorem digitsVal_natToDigitsAux :
    ∀ (fuel n : Nat), n < fuel → digitsVal (natToDigitsAux fuel n) = n := by
  intro fuel
  induction fuel with
  | zero => intro n h; omega
  | succ f ih =>
    intro n h
    unfold natToDigitsAux
    by_cases h10 : n < 10
    · rw [if_pos h10]
      have h1 : digitsVal [Nat.digitChar n] = 10 * 0 + ((Nat.digitChar n).toNat - 48) := rfl
      rw [h1, digitChar_toNat h10]
      omega
    · rw [if_neg h10, digitsVal_append_singleton,
          ih (n / 10) (by omega), digitChar_toNat (Nat.mod_lt n (by norm_num))]
      omega

theorem digitsVal_natToDigits (n : Nat) : digitsVal (natToDigits n) = n :=
  digitsVal_natToDigitsAux (n + 1) n (Nat.lt_succ_self n)

theorem natToDigits_all_digit (n : Nat) : ∀ c ∈ natToDigits n, c.isDigit = true :=
  natToDigitsAux_all_digit (n + 1) n

theorem natToDigits_ne_nil (n : Nat) : natToDigits n ≠ [] := by
  unfold natToDigits natToDigitsAux
  by_cases h10 : n < 10
  · rw [if_pos h10]; simp
  · rw [if_neg h10]; simp

end SumTables
namespace SumTables

theorem parseDecimalLit_digits {L : List Char} (hne : L ≠ []) (hd : ∀ c ∈ L, c.isDigit = true) :
    parseDecimalLit L = some ((digitsVal L : ℚ)) := by
  unfold parseDecimalLit
  rw [dropWhile_eq_nil_of_true hd, takeWhile_eq_self_of_true hd]
  have hie : L.isEmpty = false := by
    cases L with
    | nil => exact absurd rfl hne
    | cons c t => rfl
  rw [if_neg (by rw [hie]; simp)]

theorem jsToNumber_digits {L : List Char} (hne : L ≠ []) (hd : ∀ c ∈ L, c.isDigit = true) :
    jsToNumber L = some ((digitsVal L : ℚ)) := by
  have hws : ∀ x ∈ L, isJsSpace x = false := fun x hx => isJsSpace_false_of_isDigit (hd x hx)
  cases L with
  | nil => exact absurd rfl hne
  | cons c rest =>
    have hdc : c.isDigit = true := hd c (List.mem_cons_self c rest)
    have hm1 : ¬((c == '-') = true) := by
      rw [beq_false_of_isDigit hdc (by decide)]
      simp
    have hm2 : ¬((c == '+') = true) := by
      rw [beq_false_of_isDigit hdc (by decide)]
      simp
    unfold jsToNumber
    rw [trimJs_eq_self hws]
    show (if (c == '-') = true then Option.map (fun v => -v) (parseDecimalLit rest)
      else if (c == '+') = true then parseDecimalLit rest
      else parseDecimalLit (c :: rest)) = some ((digitsVal (c :: rest) : ℚ))
    rw [if_neg hm1, if_neg hm2]
    exact parseDecimalLit_digits hne hd

theorem jsToNumber_neg_digits {L : List Char} (hne : L ≠ []) (hd : ∀ c ∈ L, c.isDigit = true) :
    jsToNumber ('-' :: L) = some (-((digitsVal L : ℚ))) := by
  have hws : ∀ x ∈ ('-' :: L), isJsSpace x = false := by
    intro x hx
    rcases List.mem_cons.mp hx with rfl | hx
    · decide
    · exact isJsSpace_false_of_isDigit (hd x hx)
  unfold jsToNumber
  rw [trimJs_eq_self hws]
  show (if ('-' == '-') = true then Option.map (fun v => -v) (parseDecimalLit L)
    else if ('-' == '+') = true then parseDecimalLit L
    else parseDecimalLit ('-' :: L)) = some (-((digitsVal L : ℚ)))
  rw [if_pos (by decide), parseDecimalLit_digits hne hd]
  rfl

theorem preprocess_digits {L : List Char} (hne : L ≠ []) (hd : ∀ c ∈ L, c.isDigit = true) :
    preprocess (String.mk L) = some (L, false) := by
  have hws : ∀ x ∈ L, isJsSpace x = false := fun x hx => isJsSpace_false_of_isDigit (hd x hx)
  have htl : (String.mk L).toList = L := rfl
  have hkey : trimJs (String.mk L).toList = L := by rw [htl, trimJs_eq_self hws]
  have hstrip : stripOther L = L :=
    List.filter_eq_self.mpr fun c hc => keepChar_true_of_isDigit (hd c hc)
  have hparen : isParenNegL L = false := by
    cases L with
    | nil => exact absurd rfl hne
    | cons c rest =>
      have hdc : c.isDigit = true := hd c (List.mem_cons_self c rest)
      have hcp : c ≠ '(' := by
        intro hceq
        rw [hceq] at hdc
        exact absurd hdc (by decide)
      unfold isParenNegL
      rw [dropWhile_eq_self_of_false hws,
          dropWhile_eq_self_of_false fun x hx => hws x (List.mem_reverse.mp hx),
          List.reverse_reverse]
      simp [hcp]
  have hrp : removeParens L = L := by
    apply List.filter_eq_self.mpr
    intro c hc
    rw [beq_false_of_isDigit (hd c hc) (d := '(') (by decide),
        beq_false_of_isDigit (hd c hc) (d := ')') (by decide)]
    rfl
  have hrs : removeSpaces L = L := by
    apply List.filter_eq_self.mpr
    intro c hc
    rw [hws c hc]
    rfl
  have hsep : separatorPhase L = L := by
    unfold separatorPhase
    have hdot : '.' ∉ L := fun hm => absurd (hd '.' hm) (by decide)
    rw [if_pos (by rw [List.count_eq_zero.mpr hdot]; omega)]
    apply List.filter_eq_self.mpr
    intro c hc
    rw [beq_false_of_isDigit (hd c hc) (d := ',') (by decide)]
    rfl
  unfold preprocess
  rw [if_neg (by rw [hkey]; exact hne), hkey, hstrip, hparen, hrp, hrs, hsep]

theorem parse_digits {L : List Char} (hne : L ≠ []) (hd : ∀ c ∈ L, c.isDigit = true) :
    parseNumberFromString (String.mk L) = some ((digitsVal L : ℚ)) := by
  unfold parseNumberFromString
  rw [preprocess_digits hne hd]
  simp only
  rw [jsToNumber_digits hne hd]
  simp

theorem preprocess_neg_digits {L : List Char} (hne : L ≠ []) (hd : ∀ c ∈ L, c.isDigit = true) :
    preprocess (String.mk ('-' :: L)) = some ('-' :: L, false) := by
  have hws : ∀ x ∈ ('-' :: L), isJsSpace x = false := by
    intro x hx
    rcases List.mem_cons.mp hx with rfl | hx
    · decide
    · exact isJsSpace_false_of_isDigit (hd x hx)
  have hkc : ∀ x ∈ ('-' :: L), keepChar x = true := by
    intro x hx
    rcases List.mem_cons.mp hx with rfl | hx
    · decide
    · exact keepChar_true_of_isDigit (hd x hx)
  have htl : (String.mk ('-' :: L)).toList = '-' :: L := rfl
  have hkey : trimJs (String.mk ('-' :: L)).toList = '-' :: L := by
    rw [htl, trimJs_eq_self hws]
  have hstrip : stripOther ('-' :: L) = '-' :: L := List.filter_eq_self.mpr hkc
  have hparen : isParenNegL ('-' :: L) = false := by
    unfold isParenNegL
    rw [dropWhile_eq_self_of_false hws,
        dropWhile_eq_self_of_false fun x hx => hws x (List.mem_reverse.mp hx),
        List.reverse_reverse]
    simp
  have hnp : ∀ c ∈ ('-' :: L), (!(c == '(') && !(c == ')')) = true := by
    intro c hc
    rcases List.mem_cons.mp hc with rfl | hc
    · decide
    · rw [beq_false_of_isDigit (hd c hc) (d := '(') (by decide),
          beq_false_of_isDigit (hd c hc) (d := ')') (by decide)]
      rfl
  have hrp : removeParens ('-' :: L) = '-' :: L := List.filter_eq_self.mpr hnp
  have hrs : removeSpaces ('-' :: L) = '-' :: L := by
    apply List.filter_eq_self.mpr
    intro c hc
    rw [hws c hc]
    rfl
  have hsep : separatorPhase ('-' :: L) = '-' :: L := by
    unfold separatorPhase
    have hdot : '.' ∉ ('-' :: L) := by
      intro hm
      rcases List.mem_cons.mp hm with h | h
      · exact absurd h (by decide)
      · exact absurd (hd '.' h) (by decide)
    rw [if_pos (by rw [List.count_eq_zero.mpr hdot]; omega)]
    apply List.filter_eq_self.mpr
    intro c hc
    rcases List.mem_cons.mp hc with rfl | hc
    · decide
    · rw [beq_false_of_isDigit (hd c hc) (d := ',') (by decide)]
      rfl
  unfold preprocess
  rw [if_neg (by rw [hkey]; simp), hkey, hstrip, hparen, hrp, hrs, hsep]

theorem parse_neg_digits {L : List Char} (hne : L ≠ []) (hd : ∀ c ∈ L, c.isDigit = true) :
    parseNumberFromString (String.mk ('-' :: L)) = some (-((digitsVal L : ℚ))) := by
  unfold parseNumberFromString
  rw [preprocess_neg_digits hne hd]
  simp only
  rw [jsToNumber_neg_digits hne hd]
  simp

/-- C9: normalization is idempotent on plain integers: the stringified form of
any safe integer normalizes back to that same value. -/
theorem parse_roundtrip_integer (n : ℤ) (hsafe : n.natAbs ≤ 2 ^ 53) :
    parseNumberFromString (String.mk (jsNumToString n)) = some ((n : ℚ)) := by
  unfold jsNumToString
  by_cases h : n < 0
  · rw [if_pos h, parse_neg_digits (natToDigits_ne_nil _) (natToDigits_all_digit _),
        digitsVal_natToDigits]
    have h2 : ((n.natAbs : ℤ)) = -n := by
      rw [← Int.natAbs_neg]
      exact Int.natAbs_of_nonneg (by omega)
    have h3 : ((n.natAbs : ℕ) : ℚ) = ((-n : ℤ) : ℚ) := by
      rw [← h2]
      exact (Int.cast_natCast _).symm
    rw [h3, Int.cast_neg, neg_neg]
  · rw [if_neg h, parse_digits (natToDigits_ne_nil _) (natToDigits_all_digit _),
        digitsVal_natToDigits]
    have h2 : ((n.natAbs : ℤ)) = n := Int.natAbs_of_nonneg (by omega)
    have h3 : ((n.natAbs : ℕ) : ℚ) = ((n : ℤ) : ℚ) := by
      rw [← h2]
      exact (Int.cast_natCast _).symm
    rw [h3]

theorem parse_roundtrip_integer_witness :
    parseNumberFromString (String.mk (jsNumToString (-42))) = some (((-42 : ℤ) : ℚ)) :=
  parse_roundtrip_integer (-42) (by norm_num)

end SumTables
